import Mathlib

/-!
Verification development for the ProtExtract toolkit
(`extract_and_rename_sequences.py`, `keep_verified_sequences.py`,
`merge_fasta_files.py`, `generate_protein_table.py`).

The Python scripts are shallowly embedded: each loop becomes a fold over
explicit lists, Python string primitives (`str.split()`, `str.strip()`,
`str.lower()`, `in`, `endswith`, `rsplit`) and the library behaviour the
scripts rely on (Biopython's FASTA writer, `natsort.natsorted`, Python's
stable `sorted`) are modelled as executable Lean functions, and runtime
exceptions (IndexError / ValueError from tuple unpacking) become `Option`
failure.
-/

/-! ## Python string primitives -/

/-- The whitespace characters recognised by Python's `str.split()` /
`str.strip()` on ASCII input: space, tab, newline, carriage return,
vertical tab, form feed. -/
def isSpaceChar (c : Char) : Bool :=
  c = ' ' || c = '\t' || c = '\n' || c = '\r' ||
  c = Char.ofNat 11 || c = Char.ofNat 12

/-- Worker for `pySplit`: `cur` holds the (reversed) characters of the word
currently being read. -/
def splitWsGo : List Char → List Char → List String
  | cur, [] => if cur.isEmpty then [] else [String.mk cur.reverse]
  | cur, c :: cs =>
    if isSpaceChar c then
      if cur.isEmpty then splitWsGo [] cs
      else String.mk cur.reverse :: splitWsGo [] cs
    else splitWsGo (c :: cur) cs

/-- Python `s.split()` (no separator argument): split on runs of whitespace,
discarding empty fields. -/
def pySplit (s : String) : List String := splitWsGo [] s.toList

/-- Python `s.strip()` (no argument): remove leading and trailing
whitespace. -/
def pyStrip (s : String) : String :=
  String.mk (((s.toList.dropWhile isSpaceChar).reverse.dropWhile isSpaceChar).reverse)

/-- ASCII lower-casing of one character, as Python's `str.lower` acts on the
ASCII identifiers this program handles. -/
def lowerChar (c : Char) : Char :=
  if 'A' ≤ c && c ≤ 'Z' then Char.ofNat (c.toNat + 32) else c

/-- Python `s.lower()` on ASCII text. -/
def pyLower (s : String) : String := String.mk (s.toList.map lowerChar)

/-- Lexicographic code-point comparison of character lists, as Python
compares strings: position by position, a proper initial segment below its
extensions. -/
def listCharLt : List Char → List Char → Bool
  | _, [] => false
  | [], _ :: _ => true
  | a :: as, b :: bs => decide (a < b) || (decide (a = b) && listCharLt as bs)

/-- Python string `<`: lexicographic on code points. -/
def strLtB (s t : String) : Bool := listCharLt s.toList t.toList

/-- `startsWithL pat l` holds when `pat` is an initial segment of `l`. -/
def startsWithL : List Char → List Char → Bool
  | [], _ => true
  | _ :: _, [] => false
  | a :: as, b :: bs => a = b && startsWithL as bs

/-- Contiguous-sublist test on character lists. -/
def containsL (pat : List Char) : List Char → Bool
  | [] => startsWithL pat []
  | c :: cs => startsWithL pat (c :: cs) || containsL pat cs

/-- Python `needle in hay` for strings: literal contiguous substring test. -/
def pyContains (needle hay : String) : Bool := containsL needle.toList hay.toList

/-- Python `s.endswith(suf)`. -/
def pyEndsWith (s suf : String) : Bool :=
  startsWithL suf.toList.reverse s.toList.reverse

/-- Python `name.rsplit(".", 1)[0]`: everything before the last dot, or the
whole string when it has no dot. -/
def stripLastExt (s : String) : String :=
  let r := s.toList.reverse
  if r.any (fun c => c = '.') then
    String.mk ((r.dropWhile (fun c => !(c = '.' : Bool))).tail.reverse)
  else s

/-! ## Record model and Biopython FASTA serialization -/

/-- One Biopython `SeqRecord` as the scripts use it: `id`, `description`
and the residue string. -/
structure SeqRecord where
  id : String
  description : String
  seq : String
deriving DecidableEq

/-- Biopython's `SequenceWriter.clean`: newlines and carriage returns in a
title component are replaced by spaces. -/
def cleanText (s : String) : String :=
  String.mk (s.toList.map (fun c => if c = '\n' || c = '\r' then ' ' else c))

/-- Biopython `FastaIO` parsing of one header line (the text after `>`,
stripped): the record id is the first whitespace-delimited word and the
description is the whole line. -/
def parseRecord (title : String) (residues : String) : SeqRecord :=
  { id := (pySplit title).headD "", description := title, seq := residues }

/-- Biopython `FastaWriter.write_record` title construction: the
description is reused whole when its first word equals the id, otherwise it
is appended after the id; an empty description leaves the bare id. -/
def fastaTitle (i d : String) : String :=
  if d ≠ "" && ((pySplit d).headD "" = i) then d
  else if d ≠ "" then i ++ " " ++ d
  else i

/-- The full header line Biopython writes for a record. -/
def headerLine (r : SeqRecord) : String :=
  ">" ++ fastaTitle (cleanText r.id) (cleanText r.description)

/-- Split a residue character list into lines of (at most) 60 characters,
Biopython's FASTA wrap width. -/
def chunks60 : List Char → List (List Char)
  | [] => []
  | c :: cs => (c :: cs).take 60 :: chunks60 ((c :: cs).drop 60)
termination_by l => l.length
decreasing_by simp [List.length_drop]; omega

/-- Serialize one record as Biopython's FASTA writer does. -/
def writeRecord (r : SeqRecord) : String :=
  headerLine r ++ "\n" ++
    (chunks60 r.seq.toList).foldl (fun acc l => acc ++ String.mk l ++ "\n") ""

/-- Serialize a record list to the output FASTA text (`SeqIO.write`). -/
def fastaSerialize (rs : List SeqRecord) : String :=
  rs.foldl (fun acc r => acc ++ writeRecord r) ""

/-! ## natsort's natural-sort key

`natsort.natsorted(xs, key=f)` sorts by the tuple obtained from `f x` by
splitting it into maximal runs of digits and non-digits, digit runs taken
as (unsigned) integers, with an empty string prepended when the text starts
with a digit, so that the tuples of any two keys always compare string
against string and number against number position by position. -/

/-- One component of a natural-sort key: a run of non-digit characters or
the value of a run of digits. -/
inductive Chunk where
  | str : String → Chunk
  | num : Nat → Chunk
deriving DecidableEq

def isDigitChar (c : Char) : Bool := '0' ≤ c && c ≤ '9'

/-- Extend a reversed chunk list by one character, merging consecutive
digits into one number and consecutive non-digits into one string. -/
def pushChar (acc : List Chunk) (c : Char) : List Chunk :=
  if isDigitChar c then
    match acc with
    | Chunk.num n :: rest => Chunk.num (10 * n + (c.toNat - 48)) :: rest
    | _ => Chunk.num (c.toNat - 48) :: acc
  else
    match acc with
    | Chunk.str s :: rest => Chunk.str (s.push c) :: rest
    | _ => Chunk.str (String.singleton c) :: acc

/-- The chunk decomposition of a string, in order. -/
def natChunks (s : String) : List Chunk := (s.toList.foldl pushChar []).reverse

/-- natsort's key tuple: the chunk list, with a leading empty string when
the text starts with a digit run. -/
def natKey (s : String) : List Chunk :=
  match natChunks s with
  | Chunk.num n :: rest => Chunk.str "" :: Chunk.num n :: rest
  | l => l

/-- Strict comparison of two key components. Aligned natsort keys never
compare a string against a number (both tuples start with a string chunk
and alternate); the cross cases are fixed arbitrarily to keep the
comparison total. -/
def chunkLtB : Chunk → Chunk → Bool
  | Chunk.str s, Chunk.str t => strLtB s t
  | Chunk.str _, Chunk.num _ => false
  | Chunk.num _, Chunk.str _ => true
  | Chunk.num n, Chunk.num m => decide (n < m)

/-- Lexicographic strict comparison of key tuples; a proper initial segment
compares below its extensions, as Python tuple comparison does. -/
def keyLtB : List Chunk → List Chunk → Bool
  | _, [] => false
  | [], _ :: _ => true
  | a :: as, b :: bs => chunkLtB a b || (decide (a = b) && keyLtB as bs)

/-- The sort key the two FASTA-emitting pipelines pass to `natsorted`:
the natural key of the lower-cased identifier. -/
def natKeyOf (s : String) : List Chunk := natKey (pyLower s)

/-- The non-strict comparator (negation of strict-greater) that a stable
sort by `natKeyOf` realises, on bare identifier strings. -/
def natStrLe (a b : String) : Bool := !(keyLtB (natKeyOf b) (natKeyOf a))

/-- The same comparator lifted to records, as in
`natsorted(records, key=lambda record: record.id.lower())`. -/
def natRecLe (r₁ r₂ : SeqRecord) : Bool := natStrLe r₁.id r₂.id

/-! ## Stable sorting

Python's `sorted` is stable; we model it with a stable insertion sort. -/

/-- Insert `a` in front of the first element not strictly below it. -/
def kinsert (le : α → α → Bool) (a : α) : List α → List α
  | [] => [a]
  | b :: bs => if le a b then a :: b :: bs else b :: kinsert le a bs

/-- Stable insertion sort: equal-key elements keep their input order. -/
def ksort (le : α → α → Bool) : List α → List α
  | [] => []
  | a :: as => kinsert le a (ksort le as)

/-! ## Script 1: `extract_and_rename_sequences.py` -/

/-- The label mapping: an association list from target sequence identifier
to its labels, key order = first-appearance order, labels per key in
file order (Python dict + `setdefault(...).append(...)`). -/
abbrev Mapping := List (String × List String)

/-- `sequences.setdefault(k, []).append(v)` on the association list. -/
def appendAt (m : Mapping) (k v : String) : Mapping :=
  match m with
  | [] => [(k, [v])]
  | (k', vs) :: rest =>
    if k' = k then (k', vs ++ [v]) :: rest else (k', vs) :: appendAt rest k v

/-- Association-list lookup (`sequences[record.id]` / `record.id in sequences`),
modelling Python dict lookup on our insertion-ordered association lists. -/
def lookupM : List (String × α) → String → Option α
  | [], _ => none
  | (k', vs) :: rest, k => if k' = k then some vs else lookupM rest k

/-- One iteration of the list-file loading loop (lines 26–30):
`parts = line.split(); string_id = parts[0]; sequence_id = parts[1];
sequences.setdefault(sequence_id, []).append(string_id)`.
A line with fewer than two tokens raises IndexError (`none`); tokens past
the second are ignored. -/
def loadLine (om : Option Mapping) (line : String) : Option Mapping :=
  om.bind fun m =>
    match pySplit line with
    | p0 :: p1 :: _ => some (appendAt m p1 p0)
    | _ => none

/-- The whole list-file loading loop (lines 25–30). -/
def loadMapping (lines : List String) : Option Mapping :=
  lines.foldl loadLine (some [])

/-- The record extraction loop (lines 36–42): for each input record whose
id is a mapping key, append one renamed copy per associated label. -/
def extractRecords (m : Mapping) (rs : List SeqRecord) : List SeqRecord :=
  rs.foldl
    (fun acc r =>
      match lookupM m r.id with
      | some labels =>
        acc ++ labels.map (fun l =>
          { r with id := l ++ "|" ++ r.id, description := "" })
      | none => acc)
    []

/-- Lines 44–45: sort the extracted records with `natsorted` on the
lower-cased id. -/
def extractPipeline (m : Mapping) (rs : List SeqRecord) : List SeqRecord :=
  ksort natRecLe (extractRecords m rs)

/-- The whole script: load the list file, extract, sort, serialize. -/
def extractScript (listLines : List String) (rs : List SeqRecord) : Option String :=
  (loadMapping listLines).map fun m => fastaSerialize (extractPipeline m rs)

/-! ## Script 2: `keep_verified_sequences.py` -/

/-- Lines 32–34: each keep-list line is stripped and `"|"` appended. -/
def keepStringsOf (lines : List String) : List String :=
  lines.foldl (fun acc l => acc ++ [pyStrip l ++ "|"]) []

/-- Lines 44–46: keep exactly the records whose id contains some keep
string as a substring, in input order, unmodified. -/
def keepRecords (keepStrings : List String) (rs : List SeqRecord) : List SeqRecord :=
  rs.foldl
    (fun acc r =>
      if keepStrings.any (fun s => pyContains s r.id) then acc ++ [r] else acc)
    []

/-- The whole script on an in-memory keep list and record list. -/
def keepScript (keepLines : List String) (rs : List SeqRecord) : String :=
  fastaSerialize (keepRecords (keepStringsOf keepLines) rs)

/-! ## Script 3: `merge_fasta_files.py` -/

/-- The merge loop (lines 24–39) over the directory listing, each file
given with its parsed records: files whose name ends in `.fasta` or `.fa`
contribute one renamed copy of each record, all other files are skipped. -/
def mergeRecords (files : List (String × List SeqRecord)) : List SeqRecord :=
  files.foldl
    (fun acc f =>
      if pyEndsWith f.1 ".fasta" || pyEndsWith f.1 ".fa" then
        acc ++ f.2.map (fun r =>
          { r with id := stripLastExt f.1 ++ "|" ++ r.id, description := "" })
      else acc)
    []

/-- Lines 41–42: `natsorted` on the lower-cased new id. -/
def mergePipeline (files : List (String × List SeqRecord)) : List SeqRecord :=
  ksort natRecLe (mergeRecords files)

/-- The whole script: merge, sort, serialize. -/
def mergeScript (files : List (String × List SeqRecord)) : String :=
  fastaSerialize (mergePipeline files)

/-! ## Script 4: `generate_protein_table.py` -/

/-- Per-protein status lists: an association list from protein identifier
to the statuses seen so far, key order = first-seen order. -/
abbrev Info := List (String × List String)

/-- Line 34: `protein, status = line.strip().split()` — succeeds exactly
when the line has exactly two whitespace-delimited tokens
(ValueError otherwise). -/
def parseStatusLine (line : String) : Option (String × String) :=
  match pySplit (pyStrip line) with
  | [p, s] => some (p, s)
  | _ => none

/-- `protein_info.setdefault(protein, []).append(status)` (line 35). -/
def infoAppend (i : Info) (p s : String) : Info := appendAt i p s

/-- One line of the aggregation loop (lines 33–35), with exception
propagation. -/
def procLine (oi : Option Info) (line : String) : Option Info :=
  oi.bind fun i =>
    match parseStatusLine line with
    | some (p, s) => some (infoAppend i p s)
    | none => none

/-- The comparator realised by Python's stable `sorted(..., key=str.lower)`:
`f` may stay before `g` unless `g`'s lower-cased name is strictly below
`f`'s. -/
def fileLe (f g : String × List String) : Bool :=
  !(strLtB (pyLower g.1) (pyLower f.1))

/-- Line 20: the directory listing sorted case-insensitively
(`sorted(os.listdir(input_folder), key=str.lower)`; Python's sort is
stable and compares the lower-cased names). -/
def sortFilesCI (files : List (String × List String)) : List (String × List String) :=
  ksort fileLe files

/-- The aggregation loop (lines 26–35) over the sorted listing. -/
def buildInfo (files : List (String × List String)) : Option Info :=
  (sortFilesCI files).foldl (fun oi f => f.2.foldl procLine oi) (some [])

/-- Line 47: `0 if status == 'missing' else 1`. -/
def statusVal (s : String) : Nat := if s = "missing" then 0 else 1

/-- The whole script: the header row (a leading blank cell then the sorted
file names, line 42) and one row of 0/1 values per protein in first-seen
order (lines 46–48). -/
def tableScript (files : List (String × List String)) :
    Option (List String × List (String × List Nat)) :=
  (buildInfo files).map fun info =>
    ("" :: (sortFilesCI files).map Prod.fst,
     info.map fun r => (r.1, r.2.map statusVal))

/-! ## Order properties of the natural-sort comparator -/

theorem listCharLt_irrefl : ∀ l : List Char, listCharLt l l = false
  | [] => rfl
  | a :: as => by simp [listCharLt, listCharLt_irrefl as]

theorem listCharLt_asymm : ∀ {l₁ l₂ : List Char},
    listCharLt l₁ l₂ = true → listCharLt l₂ l₁ = true → False := by
  intro l₁ l₂ h₁ h₂
  induction l₁ generalizing l₂ with
  | nil => cases l₂ <;> simp [listCharLt] at h₂
  | cons a as ih =>
    cases l₂ with
    | nil => simp [listCharLt] at h₁
    | cons b bs =>
      simp [listCharLt] at h₁ h₂
      rcases h₁ with h₁ | ⟨rfl, h₁⟩
      · rcases h₂ with h₂ | ⟨rfl, h₂⟩
        · exact absurd h₂ (lt_asymm h₁)
        · exact absurd h₁ (lt_irrefl _)
      · rcases h₂ with h₂ | ⟨_, h₂⟩
        · exact absurd h₂ (lt_irrefl _)
        · exact ih h₁ h₂

theorem listCharLt_trans : ∀ {l₁ l₂ l₃ : List Char},
    listCharLt l₁ l₂ = true → listCharLt l₂ l₃ = true → listCharLt l₁ l₃ = true := by
  intro l₁ l₂ l₃ h₁ h₂
  induction l₁ generalizing l₂ l₃ with
  | nil =>
    cases l₃ with
    | nil => cases l₂ <;> simp [listCharLt] at h₂
    | cons c cs => simp [listCharLt]
  | cons a as ih =>
    cases l₂ with
    | nil => simp [listCharLt] at h₁
    | cons b bs =>
      cases l₃ with
      | nil => simp [listCharLt] at h₂
      | cons c cs =>
        simp [listCharLt] at h₁ h₂ ⊢
        rcases h₁ with h₁ | ⟨rfl, h₁⟩
        · rcases h₂ with h₂ | ⟨rfl, h₂⟩
          · exact Or.inl (lt_trans h₁ h₂)
          · exact Or.inl h₁
        · rcases h₂ with h₂ | ⟨rfl, h₂⟩
          · exact Or.inl h₂
          · exact Or.inr ⟨rfl, ih h₁ h₂⟩

theorem listCharLt_connex : ∀ {l₁ l₂ : List Char},
    l₁ ≠ l₂ → listCharLt l₁ l₂ = true ∨ listCharLt l₂ l₁ = true := by
  intro l₁ l₂ hne
  induction l₁ generalizing l₂ with
  | nil =>
    cases l₂ with
    | nil => exact absurd rfl hne
    | cons b bs => left; simp [listCharLt]
  | cons a as ih =>
    cases l₂ with
    | nil => right; simp [listCharLt]
    | cons b bs =>
      by_cases hab : a = b
      · subst hab
        have hne' : as ≠ bs := fun h => hne (by rw [h])
        rcases ih hne' with h | h
        · left; simp [listCharLt, h]
        · right; simp [listCharLt, h]
      · rcases lt_trichotomy a b with h | h | h
        · left; simp [listCharLt, h]
        · exact absurd h hab
        · right; simp [listCharLt, h]

theorem string_toList_inj {s t : String} (h : s.toList = t.toList) : s = t := by
  cases s
  cases t
  simp only [String.toList] at h
  rw [h]

theorem strLt_irrefl (s : String) : strLtB s s = false := listCharLt_irrefl _

theorem strLt_asymm {s t : String}
    (h₁ : strLtB s t = true) (h₂ : strLtB t s = true) : False :=
  listCharLt_asymm h₁ h₂

theorem strLt_trans {s t u : String}
    (h₁ : strLtB s t = true) (h₂ : strLtB t u = true) : strLtB s u = true :=
  listCharLt_trans h₁ h₂

theorem strLt_connex {s t : String} (h : s ≠ t) :
    strLtB s t = true ∨ strLtB t s = true :=
  listCharLt_connex (fun hl => h (string_toList_inj hl))

theorem chunkLt_irrefl (a : Chunk) : chunkLtB a a = false := by
  cases a <;> simp [chunkLtB, strLt_irrefl]

theorem chunkLt_asymm : ∀ {a b : Chunk},
    chunkLtB a b = true → chunkLtB b a = true → False := by
  intro a b h₁ h₂
  cases a <;> cases b <;> simp [chunkLtB] at h₁ h₂
  · exact strLt_asymm h₁ h₂
  · omega

theorem chunkLt_trans : ∀ {a b c : Chunk},
    chunkLtB a b = true → chunkLtB b c = true → chunkLtB a c = true := by
  intro a b c h₁ h₂
  cases a <;> cases b <;> cases c <;> simp [chunkLtB] at h₁ h₂ ⊢ <;>
    first
    | exact strLt_trans h₁ h₂
    | omega

theorem chunkLt_connex : ∀ {a b : Chunk},
    a ≠ b → chunkLtB a b = true ∨ chunkLtB b a = true := by
  intro a b hne
  cases a with
  | str s =>
    cases b with
    | str t =>
      have hst : s ≠ t := fun h => hne (by rw [h])
      rcases strLt_connex hst with h | h
      · left; simp [chunkLtB, h]
      · right; simp [chunkLtB, h]
    | num m => right; simp [chunkLtB]
  | num n =>
    cases b with
    | str t => left; simp [chunkLtB]
    | num m =>
      have hnm : n ≠ m := fun h => hne (by rw [h])
      rcases Nat.lt_or_ge n m with h | h
      · left; simp [chunkLtB, h]
      · right; simp [chunkLtB]; omega

theorem keyLt_irrefl : ∀ (l : List Chunk), keyLtB l l = false
  | [] => rfl
  | a :: as => by simp [keyLtB, chunkLt_irrefl, keyLt_irrefl as]

theorem keyLt_asymm : ∀ {l₁ l₂ : List Chunk},
    keyLtB l₁ l₂ = true → keyLtB l₂ l₁ = true → False := by
  intro l₁ l₂ h₁ h₂
  induction l₁ generalizing l₂ with
  | nil => cases l₂ <;> simp [keyLtB] at h₂
  | cons a as ih =>
    cases l₂ with
    | nil => simp [keyLtB] at h₁
    | cons b bs =>
      simp [keyLtB] at h₁ h₂
      rcases h₁ with h₁ | ⟨rfl, h₁⟩
      · rcases h₂ with h₂ | ⟨rfl, h₂⟩
        · exact chunkLt_asymm h₁ h₂
        · simp [chunkLt_irrefl] at h₁
      · rcases h₂ with h₂ | ⟨_, h₂⟩
        · simp [chunkLt_irrefl] at h₂
        · exact ih h₁ h₂

theorem keyLt_trans : ∀ {l₁ l₂ l₃ : List Chunk},
    keyLtB l₁ l₂ = true → keyLtB l₂ l₃ = true → keyLtB l₁ l₃ = true := by
  intro l₁ l₂ l₃ h₁ h₂
  induction l₁ generalizing l₂ l₃ with
  | nil =>
    cases l₃ with
    | nil => cases l₂ <;> simp [keyLtB] at h₂
    | cons c cs => simp [keyLtB]
  | cons a as ih =>
    cases l₂ with
    | nil => simp [keyLtB] at h₁
    | cons b bs =>
      cases l₃ with
      | nil => simp [keyLtB] at h₂
      | cons c cs =>
        simp [keyLtB] at h₁ h₂ ⊢
        rcases h₁ with h₁ | ⟨rfl, h₁⟩
        · rcases h₂ with h₂ | ⟨rfl, h₂⟩
          · exact Or.inl (chunkLt_trans h₁ h₂)
          · exact Or.inl h₁
        · rcases h₂ with h₂ | ⟨rfl, h₂⟩
          · exact Or.inl h₂
          · exact Or.inr ⟨rfl, ih h₁ h₂⟩

theorem keyLt_connex : ∀ {l₁ l₂ : List Chunk},
    l₁ ≠ l₂ → keyLtB l₁ l₂ = true ∨ keyLtB l₂ l₁ = true := by
  intro l₁ l₂ hne
  induction l₁ generalizing l₂ with
  | nil =>
    cases l₂ with
    | nil => exact absurd rfl hne
    | cons b bs => left; simp [keyLtB]
  | cons a as ih =>
    cases l₂ with
    | nil => right; simp [keyLtB]
    | cons b bs =>
      by_cases hab : a = b
      · subst hab
        have hne' : as ≠ bs := fun h => hne (by rw [h])
        rcases ih hne' with h | h
        · left; simp [keyLtB, h]
        · right; simp [keyLtB, h]
      · rcases chunkLt_connex hab with h | h
        · left; simp [keyLtB, h]
        · right; simp [keyLtB, h]

theorem natStrLe_refl (a : String) : natStrLe a a = true := by
  simp [natStrLe, keyLt_irrefl]

theorem natStrLe_total (a b : String) : natStrLe a b = true ∨ natStrLe b a = true := by
  unfold natStrLe
  cases h₁ : keyLtB (natKeyOf b) (natKeyOf a)
  · left; rfl
  · cases h₂ : keyLtB (natKeyOf a) (natKeyOf b)
    · right; rfl
    · exact (keyLt_asymm h₁ h₂).elim

theorem natStrLe_trans {a b c : String}
    (h₁ : natStrLe a b = true) (h₂ : natStrLe b c = true) : natStrLe a c = true := by
  unfold natStrLe at h₁ h₂ ⊢
  simp only [Bool.not_eq_true'] at h₁ h₂ ⊢
  cases hca : keyLtB (natKeyOf c) (natKeyOf a)
  · rfl
  · exfalso
    by_cases hcb : natKeyOf c = natKeyOf b
    · rw [hcb] at hca; simp [hca] at h₁
    · rcases keyLt_connex hcb with h | h
      · simp [h] at h₂
      · have := keyLt_trans h hca
        simp [this] at h₁

theorem natStrLe_of_key_eq {a b : String} (h : natKeyOf a = natKeyOf b) :
    natStrLe a b = true := by
  simp [natStrLe, h, keyLt_irrefl]

theorem natRecLe_total (r₁ r₂ : SeqRecord) :
    natRecLe r₁ r₂ = true ∨ natRecLe r₂ r₁ = true := natStrLe_total r₁.id r₂.id

theorem natRecLe_trans {r₁ r₂ r₃ : SeqRecord}
    (h₁ : natRecLe r₁ r₂ = true) (h₂ : natRecLe r₂ r₃ = true) : natRecLe r₁ r₃ = true :=
  natStrLe_trans h₁ h₂

/-! ## Generic facts about the stable sort -/

theorem kinsert_perm (le : α → α → Bool) (a : α) :
    ∀ l : List α, List.Perm (kinsert le a l) (a :: l) := by
  intro l
  induction l with
  | nil => exact List.Perm.refl _
  | cons b bs ih =>
    unfold kinsert
    cases h : le a b
    · simp only [Bool.false_eq_true, if_false]
      exact (ih.cons b).trans (List.Perm.swap a b bs)
    · simp

theorem ksort_perm (le : α → α → Bool) : ∀ l : List α, List.Perm (ksort le l) l := by
  intro l
  induction l with
  | nil => exact List.Perm.refl _
  | cons a as ih => exact (kinsert_perm le a (ksort le as)).trans (ih.cons a)

theorem mem_ksort {le : α → α → Bool} {x : α} {l : List α} :
    x ∈ ksort le l ↔ x ∈ l := (ksort_perm le l).mem_iff

theorem kinsert_pairwise {le : α → α → Bool}
    (htot : ∀ x y, le x y = true ∨ le y x = true)
    (htr : ∀ x y z, le x y = true → le y z = true → le x z = true)
    (a : α) :
    ∀ {l : List α}, l.Pairwise (fun x y => le x y = true) →
      (kinsert le a l).Pairwise (fun x y => le x y = true) := by
  intro l h
  induction l with
  | nil => simp [kinsert]
  | cons b bs ih =>
    rw [List.pairwise_cons] at h
    unfold kinsert
    cases hab : le a b
    · have hba : le b a = true := (htot a b).resolve_left (by simp [hab])
      simp only [Bool.false_eq_true, if_false]
      rw [List.pairwise_cons]
      refine ⟨?_, ih h.2⟩
      intro x hx
      rcases List.mem_cons.1 ((kinsert_perm le a bs).mem_iff.1 hx) with rfl | hx
      · exact hba
      · exact h.1 x hx
    · simp only [if_true]
      rw [List.pairwise_cons]
      refine ⟨?_, List.pairwise_cons.2 h⟩
      intro x hx
      rcases List.mem_cons.1 hx with rfl | hx
      · exact hab
      · exact htr a b x hab (h.1 x hx)

theorem ksort_pairwise {le : α → α → Bool}
    (htot : ∀ x y, le x y = true ∨ le y x = true)
    (htr : ∀ x y z, le x y = true → le y z = true → le x z = true) :
    ∀ l : List α, (ksort le l).Pairwise (fun x y => le x y = true) := by
  intro l
  induction l with
  | nil => simp [ksort]
  | cons a as ih => exact kinsert_pairwise htot htr a ih

theorem filter_kinsert_pos {le : α → α → Bool} (p : α → Bool) {a : α}
    (hpa : p a = true) (hle : ∀ b, p b = true → le a b = true) :
    ∀ l : List α, (kinsert le a l).filter p = a :: l.filter p := by
  intro l
  induction l with
  | nil => simp [kinsert, hpa]
  | cons b bs ih =>
    unfold kinsert
    cases hab : le a b
    · have hpb : p b = false := by
        cases hpb : p b
        · rfl
        · exact absurd (hle b hpb) (by simp [hab])
      simp [List.filter_cons, hpb, ih]
    · simp [List.filter_cons, hpa]

theorem filter_kinsert_neg {le : α → α → Bool} (p : α → Bool) {a : α}
    (hpa : p a = false) :
    ∀ l : List α, (kinsert le a l).filter p = l.filter p := by
  intro l
  induction l with
  | nil => simp [kinsert, hpa]
  | cons b bs ih =>
    unfold kinsert
    cases hab : le a b
    · simp [List.filter_cons, ih]
    · simp [List.filter_cons, hpa]

theorem ksort_stable_filter {le : α → α → Bool} (p : α → Bool)
    (hle : ∀ a b, p a = true → p b = true → le a b = true) :
    ∀ l : List α, (ksort le l).filter p = l.filter p := by
  intro l
  induction l with
  | nil => rfl
  | cons a as ih =>
    unfold ksort
    cases hpa : p a
    · rw [filter_kinsert_neg p hpa, ih, List.filter_cons, hpa]; simp
    · rw [filter_kinsert_pos p hpa (fun b hb => hle a b hpa hb), ih,
        List.filter_cons, hpa]; simp

/-- Two sorted permutations of each other under a strictly-ordering
(asymmetric) relation are equal. -/
theorem perm_pairwise_eq {r : α → α → Prop}
    (hasym : ∀ {x y}, r x y → r y x → False) :
    ∀ {l₁ l₂ : List α}, List.Perm l₁ l₂ → l₁.Pairwise r → l₂.Pairwise r → l₁ = l₂ := by
  intro l₁
  induction l₁ with
  | nil =>
    intro l₂ hperm _ _
    exact hperm.nil_eq
  | cons a t₁ ih =>
    intro l₂ hperm h₁ h₂
    cases l₂ with
    | nil => exact absurd hperm.eq_nil (List.cons_ne_nil a t₁)
    | cons b t₂ =>
      rw [List.pairwise_cons] at h₁ h₂
      have hab : a = b := by
        rcases List.mem_cons.1 (hperm.mem_iff.1 (List.mem_cons_self a t₁)) with h | ha
        · exact h
        · rcases List.mem_cons.1 (hperm.mem_iff.2 (List.mem_cons_self b t₂)) with h | hb
          · exact h.symm
          · exact absurd (h₁.1 b hb) (fun h => hasym h (h₂.1 a ha))
      subst hab
      rw [ih hperm.cons_inv h₁.2 h₂.2]

/-! ## The loops as list comprehensions -/

/-- The rename applied to one record of one mapping hit. -/
def renameWith (l : String) (r : SeqRecord) : SeqRecord :=
  { r with id := l ++ "|" ++ r.id, description := "" }

theorem extractRecords_eq (m : Mapping) (rs : List SeqRecord) :
    extractRecords m rs =
      rs.flatMap (fun r => ((lookupM m r.id).getD []).map (fun l => renameWith l r)) := by
  have main : ∀ (rs : List SeqRecord) (init : List SeqRecord),
      rs.foldl
        (fun acc r =>
          match lookupM m r.id with
          | some labels =>
            acc ++ labels.map (fun l =>
              { r with id := l ++ "|" ++ r.id, description := "" })
          | none => acc)
        init =
      init ++ rs.flatMap (fun r => ((lookupM m r.id).getD []).map (fun l => renameWith l r)) := by
    intro rs
    induction rs with
    | nil => intro init; simp
    | cons r rest ih =>
      intro init
      simp only [List.foldl_cons, List.flatMap_cons, ih]
      cases h : lookupM m r.id <;> simp [h, renameWith]
  exact main rs []

/-- The merge-loop extension rule for a single file. -/
def mergeFile (f : String × List SeqRecord) : List SeqRecord :=
  f.2.map fun r => { r with id := stripLastExt f.1 ++ "|" ++ r.id, description := "" }

/-- Which directory entries the merge loop accepts. -/
def isFastaName (name : String) : Bool :=
  pyEndsWith name ".fasta" || pyEndsWith name ".fa"

theorem mergeRecords_eq (files : List (String × List SeqRecord)) :
    mergeRecords files = (files.filter (fun f => isFastaName f.1)).flatMap mergeFile := by
  have main : ∀ (files : List (String × List SeqRecord)) (init : List SeqRecord),
      files.foldl
        (fun acc f =>
          if pyEndsWith f.1 ".fasta" || pyEndsWith f.1 ".fa" then
            acc ++ f.2.map (fun r =>
              { r with id := stripLastExt f.1 ++ "|" ++ r.id, description := "" })
          else acc)
        init =
      init ++ (files.filter (fun f => isFastaName f.1)).flatMap mergeFile := by
    intro files
    induction files with
    | nil => intro init; simp
    | cons f rest ih =>
      intro init
      simp only [List.foldl_cons, List.filter_cons]
      cases h : pyEndsWith f.1 ".fasta" || pyEndsWith f.1 ".fa"
      · simp only [h, Bool.false_eq_true, if_false, ih, isFastaName, h]
      · simp only [h, if_true, ih, isFastaName]
        simp [mergeFile]
  exact main files []

theorem keepRecords_eq (ks : List String) (rs : List SeqRecord) :
    keepRecords ks rs = rs.filter (fun r => ks.any (fun s => pyContains s r.id)) := by
  have main : ∀ (rs : List SeqRecord) (init : List SeqRecord),
      rs.foldl
        (fun acc r =>
          if ks.any (fun s => pyContains s r.id) then acc ++ [r] else acc)
        init =
      init ++ rs.filter (fun r => ks.any (fun s => pyContains s r.id)) := by
    intro rs
    induction rs with
    | nil => intro init; simp
    | cons r rest ih =>
      intro init
      simp only [List.foldl_cons, List.filter_cons]
      cases h : ks.any (fun s => pyContains s r.id)
      · simp only [h, Bool.false_eq_true, if_false, ih]
      · simp only [h, if_true, ih]
        simp
  exact main rs []

theorem keepStringsOf_eq (lines : List String) :
    keepStringsOf lines = lines.map (fun l => pyStrip l ++ "|") := by
  have main : ∀ (lines : List String) (init : List String),
      lines.foldl (fun acc l => acc ++ [pyStrip l ++ "|"]) init =
        init ++ lines.map (fun l => pyStrip l ++ "|") := by
    intro lines
    induction lines with
    | nil => intro init; simp
    | cons l rest ih => intro init; simp [ih]
  exact main lines []

/-! ## Association-list lemmas -/

theorem lookupM_appendAt (m : Mapping) (k v k' : String) :
    lookupM (appendAt m k v) k' =
      if k' = k then some ((lookupM m k).getD [] ++ [v]) else lookupM m k' := by
  induction m with
  | nil =>
    by_cases h : k' = k
    · subst h; simp [appendAt, lookupM]
    · simp [appendAt, lookupM, h, Ne.symm h]
  | cons e rest ih =>
    obtain ⟨k₀, vs⟩ := e
    by_cases h0 : k₀ = k
    · subst h0
      by_cases h : k' = k₀
      · subst h; simp [appendAt, lookupM]
      · simp [appendAt, lookupM, h, Ne.symm h]
    · by_cases h : k' = k₀
      · subst h
        simp [appendAt, lookupM, h0, Ne.symm h0]
      · simp [appendAt, lookupM, h0, h, Ne.symm h, ih]

theorem map_fst_appendAt (m : Mapping) (k v : String) :
    (appendAt m k v).map Prod.fst =
      if k ∈ m.map Prod.fst then m.map Prod.fst else m.map Prod.fst ++ [k] := by
  induction m with
  | nil => simp [appendAt]
  | cons e rest ih =>
    obtain ⟨k₀, vs⟩ := e
    by_cases h0 : k₀ = k
    · subst h0; simp [appendAt]
    · have h0' : k ≠ k₀ := Ne.symm h0
      by_cases hmem : k ∈ rest.map Prod.fst
      · simp [appendAt, h0, ih, hmem, h0']
      · simp [appendAt, h0, ih, hmem, h0']

/-! ## Failure behaviour of the two line loaders -/

theorem loadLine_none (line : String) : loadLine none line = none := rfl

theorem foldl_loadLine_none (lines : List String) :
    lines.foldl loadLine none = none := by
  induction lines with
  | nil => rfl
  | cons l ls ih => simp [List.foldl_cons, loadLine_none, ih]

theorem loadMapping_none_iff (lines : List String) :
    loadMapping lines = none ↔ ∃ l ∈ lines, (pySplit l).length < 2 := by
  have main : ∀ (lines : List String) (m : Mapping),
      lines.foldl loadLine (some m) = none ↔ ∃ l ∈ lines, (pySplit l).length < 2 := by
    intro lines
    induction lines with
    | nil => intro m; simp [List.foldl_nil]
    | cons l ls ih =>
      intro m
      rcases hsp : pySplit l with _ | ⟨x, _ | ⟨y, rest⟩⟩
      · simp only [List.foldl_cons, loadLine, Option.some_bind, hsp, foldl_loadLine_none]
        constructor
        · intro _; exact ⟨l, List.mem_cons_self l ls, by simp [hsp]⟩
        · intro _; trivial
      · simp only [List.foldl_cons, loadLine, Option.some_bind, hsp, foldl_loadLine_none]
        constructor
        · intro _; exact ⟨l, List.mem_cons_self l ls, by simp [hsp]⟩
        · intro _; trivial
      · simp only [List.foldl_cons, loadLine, Option.some_bind, hsp, ih]
        constructor
        · rintro ⟨l', hl', hlen⟩; exact ⟨l', List.mem_cons_of_mem l hl', hlen⟩
        · rintro ⟨l', hl', hlen⟩
          rcases List.mem_cons.1 hl' with rfl | hl'
          · rw [hsp] at hlen; simp only [List.length_cons] at hlen; omega
          · exact ⟨l', hl', hlen⟩
  exact main lines []

theorem parseStatusLine_none_iff (line : String) :
    parseStatusLine line = none ↔ (pySplit (pyStrip line)).length ≠ 2 := by
  unfold parseStatusLine
  rcases hsp : pySplit (pyStrip line) with _ | ⟨x, _ | ⟨y, _ | ⟨z, rest⟩⟩⟩ <;> simp

theorem procLine_none (line : String) : procLine none line = none := rfl

theorem foldl_procLine_none (lines : List String) :
    lines.foldl procLine none = none := by
  induction lines with
  | nil => rfl
  | cons l ls ih => simp [List.foldl_cons, procLine_none, ih]

theorem foldl_procLine_none_iff (lines : List String) :
    ∀ i : Info, lines.foldl procLine (some i) = none ↔
      ∃ l ∈ lines, parseStatusLine l = none := by
  induction lines with
  | nil => intro i; simp [List.foldl_nil]
  | cons l ls ih =>
    intro i
    rcases hp : parseStatusLine l with _ | pr
    · simp only [List.foldl_cons, procLine, Option.some_bind, hp, foldl_procLine_none]
      constructor
      · intro _; exact ⟨l, List.mem_cons_self l ls, hp⟩
      · intro _; trivial
    · simp only [List.foldl_cons, procLine, Option.some_bind, hp, ih]
      constructor
      · rintro ⟨l', hl', hnone⟩; exact ⟨l', List.mem_cons_of_mem l hl', hnone⟩
      · rintro ⟨l', hl', hnone⟩
        rcases List.mem_cons.1 hl' with rfl | hl'
        · rw [hp] at hnone; cases hnone
        · exact ⟨l', hl', hnone⟩

theorem foldl_nested_procLine (files : List (String × List String)) :
    ∀ oi : Option Info,
      files.foldl (fun oi f => f.2.foldl procLine oi) oi =
        (files.flatMap Prod.snd).foldl procLine oi := by
  induction files with
  | nil => intro oi; rfl
  | cons f rest ih =>
    intro oi
    simp only [List.foldl_cons, List.flatMap_cons, List.foldl_append, ih]

/-- First-occurrence deduplication, the key order of a Python dict built by
insertion. -/
def dedupFirst : List String → List String
  | [] => []
  | x :: xs => x :: dedupFirst (xs.filter (fun y => decide (y ≠ x)))
termination_by l => l.length
decreasing_by
  simp only [List.length_cons]
  exact Nat.lt_succ_of_le (List.length_filter_le _ _)

/-- Folding a list of already-parsed `(protein, status)` pairs into the
dictionary. -/
def pairFold (i : Info) (pairs : List (String × String)) : Info :=
  pairs.foldl (fun j pr => infoAppend j pr.1 pr.2) i

theorem foldl_procLine_some (lines : List String) :
    ∀ i : Info, (∀ l ∈ lines, parseStatusLine l ≠ none) →
      lines.foldl procLine (some i) =
        some (pairFold i (lines.filterMap parseStatusLine)) := by
  induction lines with
  | nil => intro i _; rfl
  | cons l ls ih =>
    intro i h
    rcases hp : parseStatusLine l with _ | pr
    · exact absurd hp (h l (List.mem_cons_self l ls))
    · simp only [List.foldl_cons, procLine, Option.some_bind, hp, List.filterMap_cons]
      rw [ih (infoAppend i pr.1 pr.2) (fun l' hl' => h l' (List.mem_cons_of_mem l hl'))]
      rfl

theorem lookup_pairFold_getD : ∀ (pairs : List (String × String)) (i : Info) (p : String),
    (lookupM (pairFold i pairs) p).getD [] =
      (lookupM i p).getD [] ++ (pairs.filter (fun pr => decide (pr.1 = p))).map Prod.snd := by
  intro pairs
  induction pairs with
  | nil => intro i p; simp [pairFold]
  | cons pr rest ih =>
    intro i p
    obtain ⟨q, s⟩ := pr
    have hstep : pairFold i ((q, s) :: rest) = pairFold (appendAt i q s) rest := rfl
    rw [hstep, ih]
    by_cases hpq : p = q
    · subst hpq
      rw [lookupM_appendAt]
      simp [infoAppend, List.filter_cons]
    · rw [lookupM_appendAt]
      simp [infoAppend, List.filter_cons, hpq, Ne.symm hpq]

theorem filter_notmem_append (l K : List String) (q : String) :
    (l.filter (fun y => decide (y ∉ K))).filter (fun y => decide (y ≠ q)) =
      l.filter (fun y => decide (y ∉ K ++ [q])) := by
  rw [List.filter_filter]
  apply List.filter_congr
  intro y _
  by_cases h1 : y ∈ K <;> by_cases h2 : y = q <;> simp [h1, h2]

theorem keys_pairFold : ∀ (pairs : List (String × String)) (i : Info),
    (pairFold i pairs).map Prod.fst =
      i.map Prod.fst ++
        dedupFirst ((pairs.map Prod.fst).filter (fun q => decide (q ∉ i.map Prod.fst))) := by
  intro pairs
  induction pairs with
  | nil => intro i; simp [pairFold, dedupFirst]
  | cons pr rest ih =>
    intro i
    obtain ⟨q, s⟩ := pr
    have hstep : pairFold i ((q, s) :: rest) = pairFold (appendAt i q s) rest := rfl
    rw [hstep, ih, map_fst_appendAt]
    by_cases hq : q ∈ i.map Prod.fst
    · simp only [hq, if_true, List.map_cons]
      rw [List.filter_cons, if_neg (by simp [hq])]
    · simp only [hq, if_false, List.map_cons]
      rw [List.filter_cons, if_pos (by simp [hq])]
      have hdf : dedupFirst
            (q :: (rest.map Prod.fst).filter (fun y => decide (y ∉ i.map Prod.fst))) =
          q :: dedupFirst (((rest.map Prod.fst).filter
            (fun y => decide (y ∉ i.map Prod.fst))).filter (fun y => decide (y ≠ q))) := by
        simp [dedupFirst]
      rw [hdf, filter_notmem_append]
      simp

theorem fileLe_total (f g : String × List String) :
    fileLe f g = true ∨ fileLe g f = true := by
  unfold fileLe
  cases h₁ : strLtB (pyLower g.1) (pyLower f.1)
  · left; rfl
  · cases h₂ : strLtB (pyLower f.1) (pyLower g.1)
    · right; rfl
    · exact (strLt_asymm h₁ h₂).elim

theorem fileLe_trans {f g h : String × List String}
    (h₁ : fileLe f g = true) (h₂ : fileLe g h = true) : fileLe f h = true := by
  unfold fileLe at h₁ h₂ ⊢
  simp only [Bool.not_eq_true'] at h₁ h₂ ⊢
  cases hha : strLtB (pyLower h.1) (pyLower f.1)
  · rfl
  · exfalso
    by_cases heq : pyLower h.1 = pyLower g.1
    · rw [heq] at hha; simp [hha] at h₁
    · rcases strLt_connex heq with hlt | hlt
      · simp [hlt] at h₂
      · have := strLt_trans hlt hha
        simp [this] at h₁

/-- The lines of the status files in processing order. -/
def tableLines (files : List (String × List String)) : List String :=
  (sortFilesCI files).flatMap Prod.snd

/-- The parsed `(protein, status)` pairs in processing order. -/
def tablePairs (files : List (String × List String)) : List (String × String) :=
  (tableLines files).filterMap parseStatusLine

/-- The statuses recorded for one protein, in file-processing order. -/
def rowStatuses (p : String) (files : List (String × List String)) : List String :=
  ((tablePairs files).filter (fun pr => decide (pr.1 = p))).map Prod.snd

/-- The proteins in first-seen order. -/
def firstSeenProteins (files : List (String × List String)) : List String :=
  dedupFirst ((tablePairs files).map Prod.fst)

theorem buildInfo_some_eq {files : List (String × List String)} {info : Info}
    (h : buildInfo files = some info) : info = pairFold [] (tablePairs files) := by
  unfold buildInfo at h
  rw [foldl_nested_procLine] at h
  by_cases hm : ∃ l ∈ (sortFilesCI files).flatMap Prod.snd, parseStatusLine l = none
  · rw [(foldl_procLine_none_iff _ _).2 hm] at h; cases h
  · push_neg at hm
    rw [foldl_procLine_some _ _ (fun l hl => hm l hl)] at h
    exact (Option.some_inj.1 h).symm

theorem buildInfo_some_lookup {files : List (String × List String)} {info : Info}
    (h : buildInfo files = some info) (p : String) :
    (lookupM info p).getD [] = rowStatuses p files := by
  rw [buildInfo_some_eq h, lookup_pairFold_getD]
  simp [lookupM, rowStatuses]

theorem buildInfo_some_keys {files : List (String × List String)} {info : Info}
    (h : buildInfo files = some info) :
    info.map Prod.fst = firstSeenProteins files := by
  rw [buildInfo_some_eq h, keys_pairFold]
  simp only [List.map_nil, List.nil_append, firstSeenProteins]
  congr 1
  have : ∀ q : String, (decide (q ∉ (([] : Info).map Prod.fst))) = true := by
    intro q; simp
  calc ((tablePairs files).map Prod.fst).filter
        (fun q => decide (q ∉ (([] : Info).map Prod.fst)))
      = ((tablePairs files).map Prod.fst).filter (fun _ => true) :=
        List.filter_congr (fun q _ => this q)
    _ = (tablePairs files).map Prod.fst := List.filter_true _

theorem buildInfo_none_iff (files : List (String × List String)) :
    buildInfo files = none ↔
      ∃ f ∈ files, ∃ line ∈ f.2, (pySplit (pyStrip line)).length ≠ 2 := by
  unfold buildInfo
  rw [foldl_nested_procLine, foldl_procLine_none_iff]
  constructor
  · rintro ⟨l, hl, hnone⟩
    rcases List.mem_flatMap.1 hl with ⟨f, hf, hlf⟩
    exact ⟨f, (ksort_perm fileLe files).mem_iff.1 hf, l, hlf,
      (parseStatusLine_none_iff l).1 hnone⟩
  · rintro ⟨f, hf, l, hlf, hlen⟩
    exact ⟨l, List.mem_flatMap.2 ⟨f, (ksort_perm fileLe files).mem_iff.2 hf, hlf⟩,
      (parseStatusLine_none_iff l).2 hlen⟩

/-! ## Sorted permutations with distinct keys are equal -/

theorem pairwise_keyLt_of_sorted_nodup {l : List SeqRecord}
    (hs : l.Pairwise (fun x y => natRecLe x y = true))
    (hn : (l.map (fun r => natKeyOf r.id)).Nodup) :
    l.Pairwise (fun x y => keyLtB (natKeyOf x.id) (natKeyOf y.id) = true) := by
  rw [List.Nodup, List.pairwise_map] at hn
  refine (hs.and hn).imp ?_
  intro x y hxy
  obtain ⟨hle, hne⟩ := hxy
  have hle' : keyLtB (natKeyOf y.id) (natKeyOf x.id) = false := by
    have := hle
    unfold natRecLe natStrLe at this
    simpa using this
  rcases keyLt_connex hne with h | h
  · exact h
  · rw [h] at hle'; cases hle'

theorem mergePipeline_of_perm {files₁ files₂ : List (String × List SeqRecord)}
    (hp : List.Perm files₁ files₂)
    (hn : ((mergeRecords files₁).map (fun r => natKeyOf r.id)).Nodup) :
    mergePipeline files₁ = mergePipeline files₂ := by
  have hmr : List.Perm (mergeRecords files₁) (mergeRecords files₂) := by
    rw [mergeRecords_eq, mergeRecords_eq]
    exact (hp.filter _).flatMap_right mergeFile
  have hsortperm : List.Perm (mergePipeline files₁) (mergePipeline files₂) :=
    ((ksort_perm natRecLe _).trans hmr).trans (ksort_perm natRecLe _).symm
  have hn₁ : ((mergePipeline files₁).map (fun r => natKeyOf r.id)).Nodup :=
    (((ksort_perm natRecLe (mergeRecords files₁)).map _).symm).nodup hn
  have hn₂ : ((mergePipeline files₂).map (fun r => natKeyOf r.id)).Nodup :=
    (hsortperm.map _).nodup hn₁
  have hs₁ : (mergePipeline files₁).Pairwise (fun x y => natRecLe x y = true) :=
    ksort_pairwise natRecLe_total (fun _ _ _ h₁ h₂ => natRecLe_trans h₁ h₂) _
  have hs₂ : (mergePipeline files₂).Pairwise (fun x y => natRecLe x y = true) :=
    ksort_pairwise natRecLe_total (fun _ _ _ h₁ h₂ => natRecLe_trans h₁ h₂) _
  exact perm_pairwise_eq (fun hxy hyx => keyLt_asymm hxy hyx) hsortperm
    (pairwise_keyLt_of_sorted_nodup hs₁ hn₁)
    (pairwise_keyLt_of_sorted_nodup hs₂ hn₂)

/-! ## Header lines of records with cleared descriptions -/

/-- Real FASTA identifiers contain no newline or carriage return. -/
def noNewline (s : String) : Bool := s.toList.all (fun c => !(c = '\n' || c = '\r'))

theorem cleanText_eq_self {s : String} (h : noNewline s = true) : cleanText s = s := by
  unfold cleanText
  have hmap : s.toList.map (fun c => if c = '\n' || c = '\r' then ' ' else c) =
      s.toList.map id := by
    apply List.map_congr_left
    intro c hc
    have hc' := List.all_eq_true.1 h c hc
    simp only [Bool.not_eq_true', Bool.or_eq_false_iff, decide_eq_false_iff_not] at hc'
    simp [hc'.1, hc'.2]
  rw [hmap, List.map_id]
  cases s
  rfl

theorem headerLine_empty_desc {r : SeqRecord} (hd : r.description = "")
    (hid : noNewline r.id = true) : headerLine r = ">" ++ r.id := by
  unfold headerLine
  rw [hd, cleanText_eq_self hid]
  unfold fastaTitle
  simp [cleanText]

theorem extractPipeline_desc {m : Mapping} {rs : List SeqRecord} {r : SeqRecord}
    (h : r ∈ extractPipeline m rs) : r.description = "" := by
  unfold extractPipeline at h
  rw [mem_ksort, extractRecords_eq] at h
  rcases List.mem_flatMap.1 h with ⟨r₀, _, hr⟩
  rcases List.mem_map.1 hr with ⟨l, _, rfl⟩
  rfl

theorem mergePipeline_desc {files : List (String × List SeqRecord)} {r : SeqRecord}
    (h : r ∈ mergePipeline files) : r.description = "" := by
  unfold mergePipeline at h
  rw [mem_ksort, mergeRecords_eq] at h
  rcases List.mem_flatMap.1 h with ⟨f, _, hr⟩
  rcases List.mem_map.1 hr with ⟨r₀, _, rfl⟩
  rfl

/-! ## Claims -/

/-- C1, counterexample: the claim says a mapping-list line with more than
two whitespace-delimited tokens aborts the load, and that no malformed line
is partially consumed. On the three-token line `"a b c"` the loader in fact
succeeds, using only the first two tokens (`a` as label, `b` as target) and
silently dropping `c`. -/
theorem claim_C1_cex :
    loadMapping ["a b c"] = some [("b", ["a"])] ∧ loadMapping ["a b c"] ≠ none := by
  constructor
  · decide
  · decide

/-- C1 (amended): loading the label-mapping list fails with a hard error
exactly when some line has fewer than two whitespace-delimited tokens; a
line with more than two tokens is accepted, only its first two tokens are
consumed and the rest are silently ignored. -/
theorem claim_C1_malformed_mapping_lines :
    (∀ lines : List String,
        loadMapping lines = none ↔ ∃ l ∈ lines, (pySplit l).length < 2) ∧
    loadMapping ["x y z w"] = loadMapping ["x y"] ∧
    loadMapping ["x"] = none ∧
    loadMapping [""] = none :=
  ⟨loadMapping_none_iff, by decide, by decide, by decide⟩

/-- C1 witness: a concrete one-token line makes the whole load fail. -/
theorem claim_C1_witness : loadMapping ["one"] = none :=
  (claim_C1_malformed_mapping_lines.1 ["one"]).mpr ⟨"one", by decide, by decide⟩

/-- C2: in Keep/Verify mode a record is retained exactly when some
keep-list entry, stripped and suffixed with `"|"`, occurs as a literal
contiguous substring of its identifier; kept records are a sublist of the
input (same order, unmodified); keep-list `["foo"]` keeps `foo|seq1` but
not `foobar|seq2`. -/
theorem claim_C2_keep_verify_filter :
    (∀ (ks : List String) (rs : List SeqRecord),
        keepRecords (keepStringsOf ks) rs =
          rs.filter (fun r => ks.any (fun l => pyContains (pyStrip l ++ "|") r.id))) ∧
    (∀ (ks : List String) (rs : List SeqRecord) (r : SeqRecord),
        r ∈ keepRecords (keepStringsOf ks) rs ↔
          r ∈ rs ∧ ∃ l ∈ ks, pyContains (pyStrip l ++ "|") r.id = true) ∧
    (∀ (ks : List String) (rs : List SeqRecord),
        List.Sublist (keepRecords (keepStringsOf ks) rs) rs) ∧
    keepRecords (keepStringsOf ["foo"])
        [⟨"foo|seq1", "", ""⟩, ⟨"foobar|seq2", "", ""⟩, ⟨"bar|seq3", "", ""⟩] =
      [⟨"foo|seq1", "", ""⟩] := by
  have h1 : ∀ (ks : List String) (rs : List SeqRecord),
      keepRecords (keepStringsOf ks) rs =
        rs.filter (fun r => ks.any (fun l => pyContains (pyStrip l ++ "|") r.id)) := by
    intro ks rs
    rw [keepStringsOf_eq, keepRecords_eq]
    apply List.filter_congr
    intro r _
    rw [List.any_map]
    rfl
  refine ⟨h1, ?_, ?_, by decide⟩
  · intro ks rs r
    rw [h1, List.mem_filter]
    simp [List.any_eq_true]
  · intro ks rs
    rw [keepRecords_eq]
    exact List.filter_sublist _

/-- C3: in Rename/Extract mode each record whose identifier is a mapping
key yields one output record per associated label in insertion order, with
identifier `label + "|" + original` and cleared description; records with
no mapping entry yield nothing; duplicate `(label, target)` pairs yield
duplicate outputs. -/
theorem claim_C3_rename_extract :
    (∀ (m : Mapping) (rs : List SeqRecord),
        extractRecords m rs = rs.flatMap (fun r =>
          ((lookupM m r.id).getD []).map (fun l => renameWith l r))) ∧
    (∀ (l : String) (r : SeqRecord), renameWith l r =
        { id := l ++ "|" ++ r.id, description := "", seq := r.seq }) ∧
    loadMapping ["alpha seq1", "beta seq1"] = some [("seq1", ["alpha", "beta"])] ∧
    extractRecords [("seq1", ["alpha", "beta"])] [⟨"seq1", "seq1 x", "MK"⟩] =
      [⟨"alpha|seq1", "", "MK"⟩, ⟨"beta|seq1", "", "MK"⟩] ∧
    loadMapping ["a t", "a t"] = some [("t", ["a", "a"])] ∧
    extractRecords [("t", ["a", "a"])] [⟨"t", "", "S"⟩] =
      [⟨"a|t", "", "S"⟩, ⟨"a|t", "", "S"⟩] ∧
    extractRecords [("t", ["a"])] [⟨"u", "", "S"⟩] = [] :=
  ⟨extractRecords_eq, fun _ _ => rfl, by decide, by decide, by decide, by decide,
    by decide⟩

/-- C4, counterexample: the claim says directory traversal order does not
affect Merge's output. `b.fasta` and `b.fa` both strip to stem `b`, their
records both get identifier `b|x` and hence equal sort keys, and the stable
sort keeps equal-key records in traversal order, so the two traversal
orders of the same directory produce different outputs. -/
theorem claim_C4_cex :
    mergePipeline [("b.fasta", [⟨"x", "", "AA"⟩]), ("b.fa", [⟨"x", "", "CC"⟩])] ≠
      mergePipeline [("b.fa", [⟨"x", "", "CC"⟩]), ("b.fasta", [⟨"x", "", "AA"⟩])] ∧
    List.Perm
      ([("b.fasta", [⟨"x", "", "AA"⟩]), ("b.fa", [⟨"x", "", "CC"⟩])] :
        List (String × List SeqRecord))
      [("b.fa", [⟨"x", "", "CC"⟩]), ("b.fasta", [⟨"x", "", "AA"⟩])] :=
  ⟨by decide, List.Perm.swap _ _ _⟩

/-- C4 (amended): Merge processes exactly the files whose name ends in
`.fasta` or `.fa` (others silently ignored), renames each record to
`stem + "|" + originalIdentifier` with the stem obtained by stripping the
last dot-delimited suffix and with the description cleared, and sorts the
combined set by the natural-order comparator over the lower-cased new
identifier; traversal order can only influence the relative position of
records with equal sort keys — whenever all sort keys are distinct, any
traversal order of the same directory yields the same output. -/
theorem claim_C4_merge :
    (∀ files : List (String × List SeqRecord),
        mergeRecords files =
          (files.filter (fun f => isFastaName f.1)).flatMap mergeFile) ∧
    (∀ f : String × List SeqRecord,
        isFastaName f.1 = (pyEndsWith f.1 ".fasta" || pyEndsWith f.1 ".fa")) ∧
    (∀ f : String × List SeqRecord,
        mergeFile f = f.2.map (fun r =>
          { id := stripLastExt f.1 ++ "|" ++ r.id, description := "", seq := r.seq })) ∧
    stripLastExt "a.b.fasta" = "a.b" ∧
    stripLastExt "b.fa" = "b" ∧
    mergeRecords [("skip.txt", [⟨"x", "", "AA"⟩])] = [] ∧
    (∀ files : List (String × List SeqRecord),
        (mergePipeline files).Pairwise (fun x y => natStrLe x.id y.id = true)) ∧
    (∀ files : List (String × List SeqRecord),
        List.Perm (mergePipeline files) (mergeRecords files)) ∧
    (∀ files₁ files₂ : List (String × List SeqRecord),
        List.Perm files₁ files₂ →
        ((mergeRecords files₁).map (fun r => natKeyOf r.id)).Nodup →
        mergePipeline files₁ = mergePipeline files₂) :=
  ⟨mergeRecords_eq, fun _ => rfl, fun _ => rfl, by decide, by decide, by decide,
   fun files => ksort_pairwise natRecLe_total
     (fun _ _ _ h₁ h₂ => natRecLe_trans h₁ h₂) (mergeRecords files),
   fun files => ksort_perm natRecLe (mergeRecords files),
   fun _ _ hp hn => mergePipeline_of_perm hp hn⟩

/-- C4 witness: on a directory with distinct sort keys (`A.fasta`, `b.fa`)
both traversal orders give the same merged output. -/
theorem claim_C4_witness :
    mergePipeline [("A.fasta", [⟨"x", "", "AA"⟩]), ("b.fa", [⟨"y", "", "CC"⟩])] =
      mergePipeline [("b.fa", [⟨"y", "", "CC"⟩]), ("A.fasta", [⟨"x", "", "AA"⟩])] :=
  claim_C4_merge.2.2.2.2.2.2.2.2
    [("A.fasta", [⟨"x", "", "AA"⟩]), ("b.fa", [⟨"y", "", "CC"⟩])]
    [("b.fa", [⟨"y", "", "CC"⟩]), ("A.fasta", [⟨"x", "", "AA"⟩])]
    (List.Perm.swap _ _ _) (by decide)

/-- C5: the natural-order comparator is reflexive, total and transitive on
identifiers, orders embedded digit runs numerically (`g1, g2, g10` from any
input order), is case-insensitive (`"G2"` has the same key as `"g2"`), and
the sort it drives is stable: the subsequence of entries with any fixed key
is unchanged. -/
theorem claim_C5_natural_order :
    (∀ a : String, natStrLe a a = true) ∧
    (∀ a b : String, natStrLe a b = true ∨ natStrLe b a = true) ∧
    (∀ a b c : String,
        natStrLe a b = true → natStrLe b c = true → natStrLe a c = true) ∧
    (∀ l ∈ ([["g2", "g10", "g1"], ["g2", "g1", "g10"], ["g10", "g2", "g1"],
          ["g10", "g1", "g2"], ["g1", "g2", "g10"], ["g1", "g10", "g2"]] :
          List (List String)),
        ksort natStrLe l = ["g1", "g2", "g10"]) ∧
    natKeyOf "G2" = natKeyOf "g2" ∧
    (∀ (l : List String) (k : List Chunk),
        (ksort natStrLe l).filter (fun s => decide (natKeyOf s = k)) =
          l.filter (fun s => decide (natKeyOf s = k))) ∧
    (∀ (l : List SeqRecord) (k : List Chunk),
        (ksort natRecLe l).filter (fun r => decide (natKeyOf r.id = k)) =
          l.filter (fun r => decide (natKeyOf r.id = k))) := by
  refine ⟨natStrLe_refl, natStrLe_total, fun _ _ _ h₁ h₂ => natStrLe_trans h₁ h₂,
    by decide, by decide, ?_, ?_⟩
  · intro l k
    apply ksort_stable_filter
    intro a b ha hb
    exact natStrLe_of_key_eq ((of_decide_eq_true ha).trans (of_decide_eq_true hb).symm)
  · intro l k
    apply ksort_stable_filter
    intro a b ha hb
    exact natStrLe_of_key_eq ((of_decide_eq_true ha).trans (of_decide_eq_true hb).symm)

/-- C5 witness: transitivity at concrete identifiers. -/
theorem claim_C5_witness :
    natStrLe "a" "b10" = true ∧ natStrLe "b10" "b12" = true ∧
      natStrLe "a" "b12" = true :=
  ⟨by decide, by decide,
    claim_C5_natural_order.2.2.1 "a" "b10" "b12" (by decide) (by decide)⟩

theorem lookup_map_val : ∀ (i : Info) (p : String),
    lookupM (i.map (fun r => (r.1, r.2.map statusVal))) p =
      (lookupM i p).map (List.map statusVal) := by
  intro i p
  induction i with
  | nil => rfl
  | cons e rest ih =>
    obtain ⟨k, vs⟩ := e
    by_cases h : k = p
    · simp [lookupM, h]
    · simp [lookupM, h, ih]

/-- C6: the Presence Aggregator's column order is the case-insensitive
order of the file names; each protein's row lists, in file-processing
order, `0` for the literal status token `missing` and `1` otherwise; rows
appear in first-seen protein order; and a protein absent from some file
simply gets a shorter row, as in the `p1 = [1,0]`, `p2 = [0]` example. -/
theorem claim_C6_presence_aggregator :
    (∀ (files : List (String × List String))
        (t : List String × List (String × List Nat)),
        tableScript files = some t →
          t.1 = "" :: (sortFilesCI files).map Prod.fst ∧
          List.Perm (sortFilesCI files) files ∧
          (sortFilesCI files).Pairwise (fun f g => fileLe f g = true) ∧
          (∀ p : String,
            (lookupM t.2 p).getD [] = (rowStatuses p files).map statusVal) ∧
          t.2.map Prod.fst = firstSeenProteins files) ∧
    (∀ f g : String × List String,
        fileLe f g = (!(strLtB (pyLower g.1) (pyLower f.1)))) ∧
    statusVal "missing" = 0 ∧ statusVal "present" = 1 ∧ statusVal "Missing" = 1 ∧
    tableScript
        [("speciesA", ["p1 present", "p2 missing"]), ("speciesB", ["p1 missing"])] =
      some (["", "speciesA", "speciesB"], [("p1", [1, 0]), ("p2", [0])]) := by
  refine ⟨?_, fun _ _ => rfl, rfl, rfl, rfl, by decide⟩
  intro files t h
  unfold tableScript at h
  cases hb : buildInfo files with
  | none => rw [hb] at h; cases h
  | some info =>
    rw [hb] at h
    have ht := Option.some_inj.1 h
    refine ⟨?_, ksort_perm fileLe files,
      ksort_pairwise fileLe_total (fun _ _ _ h₁ h₂ => fileLe_trans h₁ h₂) files,
      ?_, ?_⟩
    · rw [← ht]
    · intro p
      rw [← ht]
      simp only [lookup_map_val]
      rw [← buildInfo_some_lookup hb p]
      cases lookupM info p <;> rfl
    · rw [← ht]
      simp only [List.map_map]
      have : (Prod.fst ∘ fun r : String × List String => (r.1, r.2.map statusVal)) =
          Prod.fst := rfl
      rw [this, buildInfo_some_keys hb]

/-- C6 witness: the characterization applied to the concrete ragged
example. -/
theorem claim_C6_witness :
    (["", "speciesA", "speciesB"] : List String) =
        "" :: (sortFilesCI [("speciesA", ["p1 present", "p2 missing"]),
          ("speciesB", ["p1 missing"])]).map Prod.fst ∧
    (lookupM ([("p1", [1, 0]), ("p2", [0])] : List (String × List Nat)) "p1").getD [] =
      (rowStatuses "p1" [("speciesA", ["p1 present", "p2 missing"]),
        ("speciesB", ["p1 missing"])]).map statusVal := by
  have h := claim_C6_presence_aggregator.1
    [("speciesA", ["p1 present", "p2 missing"]), ("speciesB", ["p1 missing"])]
    (["", "speciesA", "speciesB"], [("p1", [1, 0]), ("p2", [0])]) (by decide)
  exact ⟨h.1, h.2.2.2.1 "p1"⟩

/-- C7, counterexample: the claim says every serialized record of every
operation has an empty description and a header of exactly `>` + id.
Keep/Verify appends records unmodified, so a parsed record whose FASTA
header carried a description is kept with that description and Biopython
writes the full original title line, not `>` + id. -/
theorem claim_C7_cex :
    keepRecords (keepStringsOf ["foo"]) [parseRecord "foo|seq1 some description" "MK"] =
      [parseRecord "foo|seq1 some description" "MK"] ∧
    (parseRecord "foo|seq1 some description" "MK").description ≠ "" ∧
    headerLine (parseRecord "foo|seq1 some description" "MK") ≠
      ">" ++ (parseRecord "foo|seq1 some description" "MK").id :=
  ⟨by decide, by decide, by decide⟩

/-- C7 (amended): Rename/Extract and Merge clear every output record's
description, and any record with an empty description (and a
newline-free identifier) serializes with header exactly `>` + identifier;
Keep/Verify instead emits input records unmodified, so its output headers
reproduce the input description. -/
theorem claim_C7_output_headers :
    (∀ (m : Mapping) (rs : List SeqRecord) (r : SeqRecord),
        r ∈ extractPipeline m rs → r.description = "") ∧
    (∀ (files : List (String × List SeqRecord)) (r : SeqRecord),
        r ∈ mergePipeline files → r.description = "") ∧
    (∀ r : SeqRecord, r.description = "" → noNewline r.id = true →
        headerLine r = ">" ++ r.id) ∧
    (∀ (ks : List String) (rs : List SeqRecord) (r : SeqRecord),
        r ∈ keepRecords ks rs → r ∈ rs) :=
  ⟨fun _ _ _ h => extractPipeline_desc h,
   fun _ _ h => mergePipeline_desc h,
   fun _ hd hn => headerLine_empty_desc hd hn,
   fun ks rs r h => by
     rw [keepRecords_eq] at h
     exact List.mem_of_mem_filter h⟩

/-- C7 witness: a concrete Rename/Extract output record and its header. -/
theorem claim_C7_witness :
    (⟨"a|t", "", "MK"⟩ : SeqRecord).description = "" ∧
    headerLine ⟨"a|t", "", "MK"⟩ = ">" ++ (⟨"a|t", "", "MK"⟩ : SeqRecord).id :=
  ⟨claim_C7_output_headers.1 [("t", ["a"])] [⟨"t", "t d", "MK"⟩] ⟨"a|t", "", "MK"⟩
      (by decide),
   claim_C7_output_headers.2.2.1 ⟨"a|t", "", "MK"⟩ rfl (by decide)⟩

/-- C8, counterexample: the claim says the aggregator handles a
wrong-token-count line exactly as the Label Map Loader does. On the
three-token line `"a b c"` the aggregator aborts, while the Label Map
Loader accepts the line (using its first two tokens). -/
theorem claim_C8_cex :
    buildInfo [("f", ["a b c"])] = none ∧ loadMapping ["a b c"] ≠ none :=
  ⟨by decide, by decide⟩

/-- C8 (amended): the Presence Aggregator aborts with a fatal error
exactly when some status line does not have exactly two
whitespace-delimited tokens — no malformed status line is skipped. (This
is stricter than the Label Map Loader, which only aborts on
fewer-than-two-token lines.) -/
theorem claim_C8_status_line_errors :
    ∀ files : List (String × List String),
      buildInfo files = none ↔
        ∃ f ∈ files, ∃ line ∈ f.2, (pySplit (pyStrip line)).length ≠ 2 :=
  buildInfo_none_iff

/-- C8 witness: a concrete one-token status line aborts the whole run. -/
theorem claim_C8_witness : buildInfo [("f", ["only"])] = none :=
  (claim_C8_status_line_errors [("f", ["only"])]).mpr
    ⟨("f", ["only"]), by decide, "only", by decide, by decide⟩

/-- C9: Merge and Rename/Extract are deterministic — equal inputs (same
directory listing with the same parsed records, same mapping-list lines,
same input records) produce byte-identical serialized output. -/
theorem claim_C9_determinism :
    ∀ (files₁ files₂ : List (String × List SeqRecord))
      (lines₁ lines₂ : List String) (rs₁ rs₂ : List SeqRecord),
      files₁ = files₂ → lines₁ = lines₂ → rs₁ = rs₂ →
        mergeScript files₁ = mergeScript files₂ ∧
        extractScript lines₁ rs₁ = extractScript lines₂ rs₂ := by
  intro files₁ files₂ lines₁ lines₂ rs₁ rs₂ hf hl hr
  subst hf
  subst hl
  subst hr
  exact ⟨rfl, rfl⟩

/-- C9 witness: concrete equal inputs give equal serialized outputs. -/
theorem claim_C9_witness :
    mergeScript [("a.fa", [⟨"x", "", "MK"⟩])] =
        mergeScript [("a.fa", [⟨"x", "", "MK"⟩])] ∧
    extractScript ["a t"] [⟨"t", "", "MK"⟩] =
        extractScript ["a t"] [⟨"t", "", "MK"⟩] :=
  claim_C9_determinism [("a.fa", [⟨"x", "", "MK"⟩])] [("a.fa", [⟨"x", "", "MK"⟩])]
    ["a t"] ["a t"] [⟨"t", "", "MK"⟩] [⟨"t", "", "MK"⟩] rfl rfl rfl

/-- C10: an empty or whitespace-only keep-list line is normalized to the
bare delimiter `"|"` (it is not skipped or rejected), and Keep/Verify then
retains every input record whose identifier contains a `"|"` anywhere. -/
theorem claim_C10_empty_keep_line :
    ∀ (ks : List String) (l : String) (rs : List SeqRecord) (r : SeqRecord),
      l ∈ ks → pyStrip l = "" →
        "|" ∈ keepStringsOf ks ∧
        (pyContains "|" r.id = true → r ∈ rs →
          r ∈ keepRecords (keepStringsOf ks) rs) := by
  intro ks l rs r hl hstrip
  have hmem : "|" ∈ keepStringsOf ks := by
    rw [keepStringsOf_eq]
    exact List.mem_map.2 ⟨l, hl, by rw [hstrip]; rfl⟩
  refine ⟨hmem, ?_⟩
  intro hc hr
  rw [keepRecords_eq, List.mem_filter]
  exact ⟨hr, List.any_eq_true.2 ⟨"|", hmem, hc⟩⟩

/-- C10 witness: a blank keep-list line keeps the record `a|b`. -/
theorem claim_C10_witness :
    "|" ∈ keepStringsOf ["", "x"] ∧
    (⟨"a|b", "", ""⟩ : SeqRecord) ∈
      keepRecords (keepStringsOf ["", "x"]) [⟨"a|b", "", ""⟩] := by
  have h := claim_C10_empty_keep_line ["", "x"] "" [⟨"a|b", "", ""⟩]
    ⟨"a|b", "", ""⟩ (by decide) (by decide)
  exact ⟨h.1, h.2 (by decide) (by decide)⟩
